import Mathlib

/-!
Verification of the `jeflog` terminal task-tree renderer (`src/lib.rs`).

The library keeps a process-wide stack of open tasks (`static TASKS`), a
process-wide animator activity flag (`static SPINNING`), and renders the
task tree with ANSI escape sequences.  We embed the state mutation and the
exact character output of `__start_task__`, `__end_task__` and the body of
the `spin` loop as pure functions; terminal output is modelled as the
string the call appends to stdout, in order.
-/

namespace Jeflog

/-- Source `struct Task { pub row_offset: i32 }`: one open task;
`row_offset` is its distance in rows above the bottom printed line.
The `i32` is modelled as `Int`; overflow (which needs 2^31 pushes while
one task stays open, and panics in a debug build before wrapping) is
outside the model. -/
structure Task where
  row_offset : Int
deriving Repr, DecidableEq

/-- The process-wide mutable state: `static TASKS: Mutex<Vec<Task>>` and
`static SPINNING: AtomicBool`.  Callers hold the mutex for the whole of a
start or end call, so each call is one atomic step on this state. -/
structure JState where
  tasks : List Task
  spinning : Bool
deriving Repr, DecidableEq

/-- ANSI: save cursor position, `ESC[s`. -/
def cursorSave : String := "\x1b[s"

/-- ANSI: restore cursor position, `ESC[u`. -/
def cursorRestore : String := "\x1b[u"

/-- ANSI: move cursor up `n` rows, `ESC[nA`. -/
def cursorUp (n : Int) : String := "\x1b[" ++ toString n ++ "A"

/-- ANSI: move cursor to column `n`, `ESC[nG`. -/
def cursorCol (n : Nat) : String := "\x1b[" ++ toString n ++ "G"

/-- ANSI: erase from cursor to end of line, `ESC[K`. -/
def eraseLine : String := "\x1b[K"

/-- `" ".repeat n` from the source. -/
def spaces (n : Nat) : String := String.mk (List.replicate n ' ')

/-- Concatenation of a list of output fragments, in order. -/
def strConcat : List String → String
  | [] => ""
  | s :: rest => s ++ strConcat rest

/-- The connector-glyph block printed by `__start_task__` after the
`println!()` when the (already incremented) stack is non-empty: save the
cursor, if the previous deepest task is more than one row up draw the
branch corner `┣` at its column, draw a `┃` on each intervening row, and
restore the cursor.  The `for _ in 1..last_row` loop of the source runs
`max (last_row - 1) 0` times. -/
def connectorOutput (tasksInc : List Task) : String :=
  match tasksInc.getLast? with
  | none => ""
  | some last =>
    cursorSave
    ++ (if last.row_offset > 1 then
          cursorUp (last.row_offset - 1)
            ++ cursorCol ((tasksInc.length - 1) * 5 + 3) ++ "┣"
        else "")
    ++ strConcat (List.replicate (last.row_offset - 1).toNat "\x1b[1D\x1b[1B┃")
    ++ cursorRestore

/-- Source `__start_task__(message)`.  Under the lock: bump every
`row_offset` by 1, print a newline, redraw the ancestor connectors, push
`Task { row_offset: 0 }`, print the `┗━ ` leaf prefix when nested, print
the yellow `-` marker and the message, then compare-and-exchange
`SPINNING` from `false` to `true`.  Returns the new state, the string
written to stdout, and whether this call won the CAS and spawned the
animator thread. -/
def __start_task__ (message : String) (s : JState) : JState × String × Bool :=
  let tasksInc := s.tasks.map (fun t => { row_offset := t.row_offset + 1 })
  let connectors := "\n" ++ connectorOutput tasksInc
  let tasks' := tasksInc ++ [{ row_offset := 0 }]
  let leaf := if tasks'.length > 1 then spaces ((tasks'.length - 2) * 5 + 2) ++ "┗━ " else ""
  let marker := "\x1b[33;1m-\x1b[0m " ++ message
  let spawned := !s.spinning
  (⟨tasks', true⟩, connectors ++ leaf ++ marker, spawned)

/-- The repositioning sequence `__end_task__` prints when a task was
popped: save cursor, move up `row` rows when `row > 0`, move to `column`,
print the symbol, a space, erase to end of line, the message, and restore
the cursor when `row != 0`. -/
def endPaint (symbol message : String) (row : Int) (column : Nat) : String :=
  cursorSave
  ++ (if row > 0 then cursorUp row else "")
  ++ cursorCol column ++ symbol ++ " " ++ eraseLine ++ message
  ++ (if row ≠ 0 then cursorRestore else "")

/-- Source `__end_task__(symbol, message)`.  Under the lock: pop the last
task; if one was popped overwrite its line in place (`endPaint`, column
computed from the remaining depth), otherwise print `symbol message` as a
plain line; finally print a blank line if the stack is now empty.
`SPINNING` is not touched.  Returns the new state and the string written
to stdout. -/
def __end_task__ (symbol message : String) (s : JState) : JState × String :=
  let popped :=
    match s.tasks.getLast? with
    | some t =>
      let rest := s.tasks.dropLast
      let column := rest.length * 5 + 1
      (rest, endPaint symbol message t.row_offset column)
    | none => (s.tasks, symbol ++ " " ++ message ++ "\n")
  let closer := if popped.1.length = 0 then "\n" else ""
  (⟨popped.1, s.spinning⟩, popped.2 ++ closer)

/-- The glyph of the `fail!` macro, `"\x1b[31;1m✘\x1b[0m"` (red bold ✘). -/
def failSymbol : String := "\x1b[31;1m✘\x1b[0m"

/-- The glyph of the `pass!` macro, `"\x1b[32;1m✔\x1b[0m"` (green bold ✔). -/
def passSymbol : String := "\x1b[32;1m✔\x1b[0m"

/-- Source spinner advance: `- → \ → | → / → -`, one step per tick. -/
def nextSpinner : Char → Char
  | '-' => '\\'
  | '\\' => '|'
  | '|' => '/'
  | '/' => '-'
  | _ => '-'

/-- One spinner repaint for one task inside a `spin` tick: save cursor,
move up `row` rows when `row > 0`, move to `column`, print the spinner
glyph in bold yellow, restore the cursor. -/
def spinPaint (spinner : Char) (row : Int) (column : Nat) : String :=
  cursorSave
  ++ (if row > 0 then cursorUp row else "")
  ++ cursorCol column ++ "\x1b[33;1m" ++ String.singleton spinner ++ "\x1b[0m"
  ++ cursorRestore

/-- The per-task paint fragments of one `spin` tick, in stack order; the
column starts at 1 and advances by 5 per task, as in the source loop. -/
def spinPaints (spinner : Char) : List Task → Nat → List String
  | [], _ => []
  | t :: ts, column => spinPaint spinner t.row_offset column :: spinPaints spinner ts (column + 5)

/-- Everything one `spin` tick writes to stdout for a given stack. -/
def spinTickOutput (spinner : Char) (tasks : List Task) : String :=
  strConcat (spinPaints spinner tasks 1)

/-- One iteration of the `spin` loop body on a non-empty observed stack:
its output and the advanced spinner glyph. -/
def spinStep (spinner : Char) (tasks : List Task) : String × Char :=
  (spinTickOutput spinner tasks, nextSpinner spinner)

/-- Source `AtomicBool::compare_exchange(current: expected → desired)`:
returns whether the exchange succeeded, and the resulting flag value. -/
def compare_exchange (current expected desired : Bool) : Bool × Bool :=
  if current = expected then (true, desired) else (false, current)

/-- `n` serialized `SPINNING.compare_exchange(false, true, …)` calls, as
executed by `n` racing `__start_task__` callers (the atomic orders them):
returns how many observed the `false → true` transition (and so spawned
an animator thread) together with the final flag value. -/
def casRun : Nat → Bool → Nat × Bool
  | 0, f => (0, f)
  | n + 1, f =>
    let r := compare_exchange f false true
    let rest := casRun n r.2
    ((if r.1 then 1 else 0) + rest.1, rest.2)

/-- The observable state of the `spin` loop thread: its spinner glyph,
whether the loop has exited, and the value of `SPINNING` (set to `false`
only after the loop breaks). -/
structure SpinState where
  spinner : Char
  halted : Bool
  flag : Bool
deriving Repr, DecidableEq

/-- `spin` as a run over the stack contents it observes at each tick
(`obs k` is what `TASKS` holds when the lock is taken for tick `k`; other
threads may change it between ticks).  `spinRun obs n` is the loop state
after `n` ticks: a tick on an empty stack breaks the loop and stores
`false` into `SPINNING`; otherwise the tick repaints and advances the
spinner. -/
def spinRun (obs : Nat → List Task) : Nat → SpinState
  | 0 => ⟨'-', false, true⟩
  | n + 1 =>
    let st := spinRun obs n
    if st.halted then st
    else if (obs n).length = 0 then { st with halted := true, flag := false }
    else { st with spinner := nextSpinner st.spinner }

/-- A caller event: a `task!` (start) or an end-variant call.  Only the
stack component matters for the stack-discipline claims, so messages and
glyphs are irrelevant and omitted. -/
inductive Ev where
  | push
  | pop
deriving Repr, DecidableEq, BEq

/-- The effect of one caller event on the task stack, through the embedded
lifecycle operations. -/
def stepTasks : Ev → List Task → List Task
  | .push, ts => (__start_task__ "" ⟨ts, true⟩).1.tasks
  | .pop, ts => (__end_task__ "" "" ⟨ts, true⟩).1.tasks

/-- The task stack after running a trace of caller events from the initial
empty stack. -/
def runTasks (t : List Ev) : List Task :=
  t.foldl (fun ts e => stepTasks e ts) []

/-- Ghost instrumentation of the stack: each task carries the trace index
of the `push` that created it. -/
def gstep (i : Nat) (s : List (Nat × Task)) : Ev → List (Nat × Task)
  | .push => s.map (fun p => (p.1, { row_offset := p.2.row_offset + 1 })) ++ [(i, { row_offset := 0 })]
  | .pop => s.dropLast

/-- Run the ghost-instrumented stack over a trace, numbering events from `i`. -/
def grunAux : Nat → List (Nat × Task) → List Ev → List (Nat × Task)
  | _, s, [] => s
  | i, s, e :: es => grunAux (i + 1) (gstep i s e) es

/-- The ghost-instrumented stack after a trace from the empty stack. -/
def grun (t : List Ev) : List (Nat × Task) := grunAux 0 [] t

/-- Number of `push` events in a trace. -/
def countPush (t : List Ev) : Nat := t.count .push

/-- The stack invariant maintained by the lifecycle operations: all row
offsets are non-negative and they strictly decrease from the root to the
deepest task. -/
def StackInv (ts : List Task) : Prop :=
  (∀ x ∈ ts, 0 ≤ x.row_offset) ∧ ts.Pairwise (fun a b => b.row_offset < a.row_offset)

theorem start_tasks (m : String) (s : JState) :
    (__start_task__ m s).1.tasks
      = s.tasks.map (fun t => { row_offset := t.row_offset + 1 }) ++ [{ row_offset := 0 }] := rfl

theorem end_tasks (sym m : String) (ts : List Task) (fl : Bool) :
    (__end_task__ sym m ⟨ts, fl⟩).1.tasks = ts.dropLast := by
  rcases List.eq_nil_or_concat ts with h | ⟨as, a, h⟩ <;> subst h <;>
    simp [__end_task__, List.getLast?_concat]

theorem end_spinning (sym m : String) (s : JState) :
    (__end_task__ sym m s).1.spinning = s.spinning := rfl

theorem end_pop_state (sym m : String) (ts : List Task) (t : Task) (fl : Bool) :
    __end_task__ sym m ⟨ts ++ [t], fl⟩
      = (⟨ts, fl⟩,
         endPaint sym m t.row_offset (ts.length * 5 + 1)
           ++ (if ts.length = 0 then "\n" else "")) := by
  simp [__end_task__, List.getLast?_concat, List.dropLast_concat]

theorem getLast?_mem_of_eq {α : Type} {l : List α} {a : α} (h : l.getLast? = some a) :
    a ∈ l := by
  rcases List.eq_nil_or_concat l with rfl | ⟨as, b, rfl⟩
  · simp at h
  · rw [List.concat_eq_append, List.getLast?_concat] at h
    simp [List.concat_eq_append, Option.some_inj.mp h]

/-- C1: for every stack state, the stack-mutation part of
`__start_task__` appends a new task with `row_offset = 0` and gives every
pre-existing task, in its original position, a `row_offset` exactly one
larger than before the push. -/
theorem start_push_row_offsets (m : String) (s : JState) :
    ((__start_task__ m s).1.tasks).length = s.tasks.length + 1 ∧
    ((__start_task__ m s).1.tasks).getLast? = some { row_offset := 0 } ∧
    ∀ i (h : i < s.tasks.length),
      ((__start_task__ m s).1.tasks)[i]?
        = some { row_offset := (s.tasks.get ⟨i, h⟩).row_offset + 1 } := by
  rw [start_tasks]
  refine ⟨by simp, List.getLast?_concat _, ?_⟩
  intro i h
  rw [List.getElem?_append, if_pos (by simpa using h), List.getElem?_map]
  simp [List.getElem?_eq_getElem h]

theorem start_push_row_offsets_witness :
    ((__start_task__ "t" ⟨[{ row_offset := 5 }], false⟩).1.tasks)[0]?
      = some { row_offset := 6 } :=
  (start_push_row_offsets "t" ⟨[{ row_offset := 5 }], false⟩).2.2 0 (by decide)

/-- C3: `__end_task__` on an empty task stack is a total, non-failing
operation (the empty pop is handled, never a panic): it leaves the state
unchanged and its output begins with the plain line `symbol ++ " " ++
message ++ "\n"`. -/
theorem end_empty_stack_safe (sym m : String) (fl : Bool) :
    (__end_task__ sym m ⟨[], fl⟩).1 = ⟨[], fl⟩ ∧
    ∃ rest, (__end_task__ sym m ⟨[], fl⟩).2 = sym ++ " " ++ m ++ "\n" ++ rest :=
  ⟨rfl, "\n", rfl⟩

/-- C4 counterexample: with an empty stack, `__end_task__` with the
failure glyph and message `"no task"` does not print exactly
`failSymbol ++ " no task" ++ "\n"` — the unconditional
`if tasks.len() == 0` closer adds a second newline. -/
theorem end_fail_empty_exact_cex :
    ¬ ((__end_task__ failSymbol "no task" ⟨[], false⟩).2
          = failSymbol ++ " no task" ++ "\n" ∧
       (__end_task__ failSymbol "no task" ⟨[], false⟩).1 = ⟨[], false⟩) := by
  decide

/-- C4 as amended: with an empty stack, `__end_task__ failSymbol "no
task"` leaves the stack and the activity flag unchanged and writes
exactly `failSymbol ++ " no task" ++ "\n"` followed by one extra blank
line (the stack-empty closer fires even though nothing was popped). -/
theorem end_fail_empty_exact (fl : Bool) :
    __end_task__ failSymbol "no task" ⟨[], fl⟩
      = (⟨[], fl⟩, failSymbol ++ " no task" ++ "\n" ++ "\n") := rfl

/-- C5: an `__end_task__` call that pops a task appends exactly one
trailing blank line when the pop empties the stack, and appends nothing
after the repositioning sequence when tasks remain open. -/
theorem end_trailing_blank (sym m : String) (fl : Bool) (ts : List Task) (t : Task) :
    (ts = [] →
      (__end_task__ sym m ⟨ts ++ [t], fl⟩).2 = endPaint sym m t.row_offset 1 ++ "\n") ∧
    (ts ≠ [] →
      (__end_task__ sym m ⟨ts ++ [t], fl⟩).2
        = endPaint sym m t.row_offset (ts.length * 5 + 1)) := by
  rw [end_pop_state]
  constructor
  · rintro rfl; simp
  · intro h
    rw [if_neg (by simpa using h)]
    simp

theorem end_trailing_blank_witness :
    (__end_task__ "S" "ok" ⟨[{ row_offset := 0 }], false⟩).2
      = endPaint "S" "ok" 0 1 ++ "\n" :=
  (end_trailing_blank "S" "ok" false [] { row_offset := 0 }).1 rfl

/-- C6: popping a task with saved offset `row` (non-negative, as for every
reachable stack) from a stack leaving depth `d = ts.length` behind emits:
cursor-save, a cursor-up-`row` only when `row ≠ 0`, cursor-to-column
`d*5+1`, the symbol, a space, erase-to-end-of-line, the message, and a
cursor-restore exactly when `row ≠ 0` (plus the tree closer when the
stack emptied); the surviving stack is `ts`. -/
theorem end_reposition_spec (sym m : String) (fl : Bool) (ts : List Task) (t : Task)
    (hr : 0 ≤ t.row_offset) :
    (__end_task__ sym m ⟨ts ++ [t], fl⟩).1.tasks = ts ∧
    (__end_task__ sym m ⟨ts ++ [t], fl⟩).2
      = cursorSave
        ++ (if t.row_offset = 0 then "" else cursorUp t.row_offset)
        ++ cursorCol (ts.length * 5 + 1) ++ sym ++ " " ++ eraseLine ++ m
        ++ (if t.row_offset = 0 then "" else cursorRestore)
        ++ (if ts.length = 0 then "\n" else "") := by
  rw [end_pop_state]
  refine ⟨rfl, ?_⟩
  rcases hr.lt_or_eq with h | h
  · have h0 : t.row_offset ≠ 0 := by omega
    rw [endPaint, if_pos h, if_pos h0, if_neg h0, if_neg h0]
  · rw [endPaint, ← h]
    simp

theorem end_reposition_spec_witness :
    (__end_task__ "S" "done" ⟨[{ row_offset := 1 }], true⟩).1.tasks = [] ∧
    (__end_task__ "S" "done" ⟨[{ row_offset := 1 }], true⟩).2
      = cursorSave ++ (if (1 : Int) = 0 then "" else cursorUp 1)
        ++ cursorCol 1 ++ "S" ++ " " ++ eraseLine ++ "done"
        ++ (if (1 : Int) = 0 then "" else cursorRestore) ++ "\n" :=
  end_reposition_spec "S" "done" true [] { row_offset := 1 } (by decide)

theorem spinPaints_getElem? (sp : Char) :
    ∀ (ts : List Task) (c i : Nat),
      (spinPaints sp ts c)[i]?
        = ts[i]?.map (fun t => spinPaint sp t.row_offset (c + 5 * i)) := by
  intro ts
  induction ts with
  | nil => intro c i; simp [spinPaints]
  | cons t ts ih =>
    intro c i
    cases i with
    | zero => simp [spinPaints]
    | succ j =>
      rw [spinPaints]
      simp only [List.getElem?_cons_succ]
      rw [ih (c + 5) j]
      have harith : c + 5 + 5 * j = c + 5 * (j + 1) := by ring
      rw [harith]

/-- C7: the spinner glyph cycle is `- → \ → | → / → -`; a tick advances
the glyph exactly once, independently of the observed stack; and the
tick's output is the concatenation, in stack order, of one repaint per
task, the `i`-th using the same current glyph at column `1 + 5*i`. -/
theorem spin_tick_spec :
    (nextSpinner '-' = '\\' ∧ nextSpinner '\\' = '|' ∧
      nextSpinner '|' = '/' ∧ nextSpinner '/' = '-') ∧
    (∀ sp (ts : List Task), (spinStep sp ts).2 = nextSpinner sp) ∧
    (∀ sp (ts : List Task), (spinStep sp ts).1 = strConcat (spinPaints sp ts 1)) ∧
    (∀ sp (ts : List Task) (i : Nat),
      (spinPaints sp ts 1)[i]?
        = ts[i]?.map (fun t => spinPaint sp t.row_offset (1 + 5 * i))) :=
  ⟨⟨rfl, rfl, rfl, rfl⟩, fun _ _ => rfl, fun _ _ => rfl,
    fun sp ts i => spinPaints_getElem? sp ts 1 i⟩

/-- C8: the `spin` loop has halted after `n` ticks exactly when some
earlier tick observed an empty stack; when it halts it has stored `false`
into the activity flag, and while every tick so far observed a non-empty
stack it is still running with the flag still `true`. -/
theorem spin_loop_termination (obs : Nat → List Task) (n : Nat) :
    ((spinRun obs n).halted = true ↔ ∃ k < n, obs k = []) ∧
    ((spinRun obs n).halted = true → (spinRun obs n).flag = false) ∧
    ((spinRun obs n).halted = false → (spinRun obs n).flag = true) := by
  induction n with
  | zero => simp [spinRun]
  | succ n ih =>
    by_cases hh : (spinRun obs n).halted = true
    · have hmem := ih.1.mp hh
      obtain ⟨k, hk, he⟩ := hmem
      refine ⟨⟨fun _ => ⟨k, by omega, he⟩, fun _ => ?_⟩, fun _ => ?_, fun hcontra => ?_⟩
      · simp [spinRun, hh]
      · simp only [spinRun, hh, if_pos]
        exact ih.2.1 hh
      · rw [spinRun] at hcontra
        simp [hh] at hcontra
    · by_cases ho : (obs n).length = 0
      · have he : obs n = [] := List.length_eq_zero.mp ho
        refine ⟨⟨fun _ => ⟨n, by omega, he⟩, fun _ => ?_⟩, fun _ => ?_, fun hcontra => ?_⟩
        · simp [spinRun, hh, ho]
        · simp [spinRun, hh, ho]
        · simp [spinRun, hh, ho] at hcontra
      · refine ⟨⟨fun hcontra => ?_, fun hex => ?_⟩, fun hcontra => ?_, fun _ => ?_⟩
        · simp [spinRun, hh, ho] at hcontra
        · obtain ⟨k, hk, he⟩ := hex
          have hkn : k < n := by
            rcases Nat.lt_succ_iff_lt_or_eq.mp hk with h | h
            · exact h
            · exfalso; exact ho (by rw [h] at he; simp [he])
          exact absurd (ih.1.mpr ⟨k, hkn, he⟩) hh
        · simp [spinRun, hh, ho] at hcontra
        · simp only [spinRun, hh, ho, if_neg, Bool.false_eq_true, ite_false]
          exact ih.2.2 (by simpa using hh)

theorem spin_loop_termination_witness :
    (spinRun (fun _ => ([] : List Task)) 1).flag = false := by
  have h := spin_loop_termination (fun _ => ([] : List Task)) 1
  exact h.2.1 (h.1.mpr ⟨0, Nat.zero_lt_one, rfl⟩)

/-- C9: any number of racing `start` callers execute their
compare-and-exchange operations on the activity flag in some serial
order; with the flag initially `false`, exactly one of `n + 1` such calls
observes the `false → true` transition (and spawns the animator), and
with the flag already `true` none does. -/
theorem cas_exactly_one_spawn :
    (∀ n : Nat, casRun (n + 1) false = (1, true)) ∧
    (∀ n : Nat, casRun n true = (0, true)) := by
  have htrue : ∀ n, casRun n true = (0, true) := by
    intro n
    induction n with
    | zero => rfl
    | succ n ih => simp [casRun, compare_exchange, ih]
  exact ⟨fun n => by simp [casRun, compare_exchange, htrue n], htrue⟩

theorem grunAux_append (e : Ev) :
    ∀ (es : List Ev) (i : Nat) (s : List (Nat × Task)),
      grunAux i s (es ++ [e]) = gstep (i + es.length) (grunAux i s es) e := by
  intro es
  induction es with
  | nil => intro i s; simp [grunAux]
  | cons a es ih =>
    intro i s
    have hlen : i + (a :: es).length = (i + 1) + es.length := by
      rw [List.length_cons]; omega
    show grunAux (i + 1) (gstep i s a) (es ++ [e])
        = gstep (i + (a :: es).length) (grunAux (i + 1) (gstep i s a) es) e
    rw [ih (i + 1) (gstep i s a), hlen]

theorem grun_append (t : List Ev) (e : Ev) :
    grun (t ++ [e]) = gstep t.length (grun t) e := by
  rw [grun, grunAux_append]
  simp [grun]

theorem gstep_proj (i : Nat) (s : List (Nat × Task)) (e : Ev) :
    (gstep i s e).map Prod.snd = stepTasks e (s.map Prod.snd) := by
  cases e with
  | push => simp [gstep, stepTasks, start_tasks, List.map_map, Function.comp]
  | pop =>
    have h : stepTasks Ev.pop (s.map Prod.snd) = (s.map Prod.snd).dropLast :=
      end_tasks "" "" (s.map Prod.snd) true
    rw [h, gstep, List.map_dropLast]

theorem grunAux_proj :
    ∀ (es : List Ev) (i : Nat) (s : List (Nat × Task)),
      (grunAux i s es).map Prod.snd
        = es.foldl (fun ts e => stepTasks e ts) (s.map Prod.snd) := by
  intro es
  induction es with
  | nil => intro i s; rfl
  | cons e es ih =>
    intro i s
    simp only [grunAux, List.foldl_cons]
    rw [ih, gstep_proj]

theorem grun_proj (t : List Ev) : (grun t).map Prod.snd = runTasks t := by
  simpa [grun, runTasks] using grunAux_proj t 0 []

theorem drop_concat_of_lt {α : Type} (l : List α) (a : α) (n : Nat) (h : n ≤ l.length) :
    (l ++ [a]).drop n = l.drop n ++ [a] := by
  rw [List.drop_append_eq_append_drop, Nat.sub_eq_zero_of_le h, List.drop_zero]

theorem grun_inv (t : List Ev) :
    ∀ p ∈ grun t,
      p.1 < t.length ∧ t[p.1]? = some Ev.push ∧
      p.2.row_offset = (countPush (t.drop (p.1 + 1)) : Int) := by
  induction t using List.reverseRecOn with
  | nil => intro p hp; simp [grun, grunAux] at hp
  | append_singleton t e ih =>
    intro p hp
    rw [grun_append] at hp
    cases e with
    | push =>
      simp only [gstep] at hp
      rcases List.mem_append.mp hp with hmem | hmem
      · obtain ⟨q, hq, rfl⟩ := List.mem_map.mp hmem
        obtain ⟨h1, h2, h3⟩ := ih q hq
        refine ⟨by simp; omega, ?_, ?_⟩
        · rw [List.getElem?_append, if_pos h1]; exact h2
        · rw [drop_concat_of_lt t Ev.push (q.1 + 1) (by omega), countPush,
            List.count_append]
          rw [countPush] at h3
          simp only []
          have hone : [Ev.push].count Ev.push = 1 := by decide
          rw [hone]
          push_cast
          omega
      · simp only [List.mem_singleton] at hmem
        subst hmem
        refine ⟨by simp, ?_, ?_⟩
        · rw [List.getElem?_concat_length]
        · rw [List.drop_eq_nil_of_le (by simp)]
          simp [countPush]
    | pop =>
      simp only [gstep] at hp
      have hp' : p ∈ grun t := (List.dropLast_sublist (grun t)).subset hp
      obtain ⟨h1, h2, h3⟩ := ih p hp'
      refine ⟨by simp; omega, ?_, ?_⟩
      · rw [List.getElem?_append, if_pos h1]; exact h2
      · rw [drop_concat_of_lt t Ev.pop (p.1 + 1) (by omega), countPush,
          List.count_append]
        rw [countPush] at h3
        have hzero : [Ev.pop].count Ev.push = 0 := by decide
        rw [hzero]
        push_cast
        omega

/-- C2: for every trace of start and end calls from the empty stack, the
task at the top of the resulting stack — the one the next `__end_task__`
pops — was created by the `push` at trace position `b`, and its
`row_offset` equals exactly the number of pushes that occurred after
position `b`, i.e. after its own start and before this end. -/
theorem end_pop_row_count (t : List Ev) (b : Nat) (task : Task)
    (h : (grun t).getLast? = some (b, task)) :
    (runTasks t).getLast? = some task ∧
    b < t.length ∧ t[b]? = some Ev.push ∧
    task.row_offset = (countPush (t.drop (b + 1)) : Int) := by
  have hinv := grun_inv t (b, task) (getLast?_mem_of_eq h)
  refine ⟨?_, hinv.1, hinv.2.1, hinv.2.2⟩
  rw [← grun_proj, List.getLast?_map, h]
  rfl

theorem end_pop_row_count_witness :
    (runTasks [Ev.push, Ev.push]).getLast? = some { row_offset := 0 } :=
  (end_pop_row_count [Ev.push, Ev.push] 1 { row_offset := 0 } (by decide)).1

theorem stackInv_push (ts : List Task) (h : StackInv ts) :
    StackInv (stepTasks Ev.push ts) := by
  obtain ⟨hnn, hpw⟩ := h
  have hstep : stepTasks Ev.push ts
      = ts.map (fun t => { row_offset := t.row_offset + 1 }) ++ [{ row_offset := 0 }] :=
    start_tasks "" ⟨ts, true⟩
  rw [StackInv, hstep]
  constructor
  · intro x hx
    rcases List.mem_append.mp hx with hx | hx
    · obtain ⟨y, hy, rfl⟩ := List.mem_map.mp hx
      have := hnn y hy
      simp
      omega
    · simp only [List.mem_singleton] at hx
      subst hx
      simp
  · rw [List.pairwise_append]
    refine ⟨?_, by simp, ?_⟩
    · rw [List.pairwise_map]
      exact hpw.imp (fun hab => add_lt_add_right hab 1)
    · intro a ha b hb
      simp only [List.mem_singleton] at hb
      subst hb
      obtain ⟨y, hy, rfl⟩ := List.mem_map.mp ha
      have := hnn y hy
      simp
      omega

theorem stackInv_pop (ts : List Task) (h : StackInv ts) :
    StackInv (stepTasks Ev.pop ts) := by
  obtain ⟨hnn, hpw⟩ := h
  have hstep : stepTasks Ev.pop ts = ts.dropLast := end_tasks "" "" ts true
  rw [StackInv, hstep]
  exact ⟨fun x hx => hnn x ((List.dropLast_sublist ts).subset hx),
    hpw.sublist (List.dropLast_sublist ts)⟩

theorem runTasks_inv (t : List Ev) : StackInv (runTasks t) := by
  suffices h : ∀ (u : List Ev) (ts : List Task),
      StackInv ts → StackInv (u.foldl (fun ts e => stepTasks e ts) ts) from
    h t [] ⟨by simp, by simp⟩
  intro u
  induction u with
  | nil => intro ts h; exact h
  | cons e u ih =>
    intro ts h
    rw [List.foldl_cons]
    apply ih
    cases e
    · exact stackInv_push ts h
    · exact stackInv_pop ts h

/-- C10: `__end_task__` on a non-empty stack removes only the last task,
leaving the surviving tasks, their order, and their row offsets
untouched; `__start_task__` only applies the uniform +1 increment to
existing tasks and appends; consequently along every trace of lifecycle
calls the row offsets stay non-negative and strictly decrease from the
root to the deepest task. -/
theorem lifecycle_frame_and_invariant :
    (∀ (sym m : String) (fl : Bool) (ts : List Task) (t : Task),
      (__end_task__ sym m ⟨ts ++ [t], fl⟩).1.tasks = ts) ∧
    (∀ (m : String) (s : JState),
      (__start_task__ m s).1.tasks
        = s.tasks.map (fun t => { row_offset := t.row_offset + 1 })
            ++ [{ row_offset := 0 }]) ∧
    (∀ t : List Ev,
      (∀ x ∈ runTasks t, 0 ≤ x.row_offset) ∧
      (runTasks t).Pairwise (fun a b => b.row_offset < a.row_offset)) := by
  refine ⟨?_, fun m s => start_tasks m s, fun t => runTasks_inv t⟩
  intro sym m fl ts t
  rw [end_tasks, List.dropLast_concat]

theorem lifecycle_frame_and_invariant_witness :
    (0 : Int) ≤ (Task.mk 0).row_offset ∧
    (__end_task__ "S" "m" ⟨[{ row_offset := 1 }, { row_offset := 0 }], true⟩).1.tasks
      = [{ row_offset := 1 }] :=
  ⟨(lifecycle_frame_and_invariant.2.2 [Ev.push]).1 { row_offset := 0 } (by decide),
   lifecycle_frame_and_invariant.1 "S" "m" true [{ row_offset := 1 }] { row_offset := 0 }⟩

end Jeflog
